import Mathlib

/-!
Verification development for the Recon AI 2.0 repository.

The repository ships a Vite/React reviewer front end together with README
documentation of its FastAPI backend.  This file gives a shallow embedding of

* the markdown preview helpers of src/src/utils/markdown.ts,
* the viewer store transition setJobId of src/src/state/viewerStore.ts,
* the page-orientation selector (backend/utils/auto_rotate_lines.py) and the
  table continuation engine (backend/services/table_grouping.py).  These two
  backend modules are documented in src/README.md and in the design
  specification, but their Python sources are not part of the repository
  snapshot, so their embeddings below are modelled from the specification and
  are marked as such in their doc comments.

Strings are embedded as lists of characters; JavaScript string lengths are
code-unit counts, modelled here as character counts (all characters involved
in the claims live in the Basic Multilingual Plane).
-/

namespace ReconAI

/-! ## Markdown helpers (src/src/utils/markdown.ts) -/

/-- JavaScript whitespace: the characters matched by the regex class \s and
removed by String.prototype.trim (WhiteSpace and LineTerminator code points). -/
def isJsWhitespace (c : Char) : Bool :=
  let n := c.toNat
  n = 0x9 || n = 0xA || n = 0xB || n = 0xC || n = 0xD || n = 0x20 ||
  n = 0xA0 || n = 0x1680 || (0x2000 <= n && n <= 0x200A) ||
  n = 0x2028 || n = 0x2029 || n = 0x202F || n = 0x205F ||
  n = 0x3000 || n = 0xFEFF

theorem dropWhile_length_le {α : Type} (p : α → Bool) :
    ∀ l : List α, (l.dropWhile p).length ≤ l.length := by
  intro l
  induction l with
  | nil => simp
  | cons c rest ih =>
    simp only [List.dropWhile]
    split
    · exact Nat.le_trans ih (by simp)
    · simp

/-- Embedding of .replace(/\r\n/g, LF): every CRLF pair becomes a single LF. -/
def replaceCRLF : List Char → List Char
  | '\r' :: '\n' :: rest => '\n' :: replaceCRLF rest
  | c :: rest => c :: replaceCRLF rest
  | [] => []

/-- Suffix of the input immediately after the first occurrence of the pattern,
or none when the pattern does not occur. -/
def afterFirst (pat : List Char) : List Char → Option (List Char)
  | [] => if pat.isEmpty then some [] else none
  | c :: rest =>
    if pat.isPrefixOf (c :: rest) then some (List.drop pat.length (c :: rest))
    else afterFirst pat rest

theorem afterFirst_length_lt {pat : List Char} (hpat : pat ≠ []) :
    ∀ {l r : List Char}, afterFirst pat l = some r → r.length < l.length := by
  intro l
  induction l with
  | nil =>
    intro r h
    simp only [afterFirst, List.isEmpty_iff] at h
    split at h
    · exact absurd (by assumption) hpat
    · exact absurd h (by simp)
  | cons c rest ih =>
    intro r h
    simp only [afterFirst] at h
    split at h
    · cases h
      have hlen : 1 ≤ pat.length := by
        cases pat with
        | nil => exact absurd rfl hpat
        | cons a as => simp
      simp only [List.length_drop, List.length_cons]
      omega
    · exact Nat.lt_trans (ih h) (by simp)

/-- Embedding of .replace of a global non-greedy delimited-block regex such as
the ref, det and bbox tag removers in sanitizeMarkdownContent: each occurrence
of the opening tag (o :: opn) together with everything up to and including the
first subsequent closing tag (k :: cls) is removed; an opening tag with no
later closing tag is kept verbatim, as the regex then fails to match. -/
def removeDelimited (o : Char) (opn : List Char) (k : Char) (cls : List Char) :
    List Char → List Char
  | [] => []
  | c :: rest =>
    if (o :: opn).isPrefixOf (c :: rest) then
      match h : afterFirst (k :: cls) (List.drop (o :: opn).length (c :: rest)) with
      | some rest2 => removeDelimited o opn k cls rest2
      | none => c :: removeDelimited o opn k cls rest
    else c :: removeDelimited o opn k cls rest
  termination_by l => l.length
  decreasing_by
  · have h1 := afterFirst_length_lt (by simp : k :: cls ≠ []) h
    have h2 : (List.drop (o :: opn).length (c :: rest)).length ≤ rest.length := by
      simp only [List.length_drop, List.length_cons]
      omega
    simp only [List.length_cons]
    omega
  · simp
  · simp

/-- Embedding of .replace of the regex collapsing three or more consecutive
newlines into exactly two. -/
def collapseNewlines : List Char → List Char
  | [] => []
  | c :: rest =>
    if c = '\n' then
      (if 3 ≤ (rest.takeWhile (· = '\n')).length + 1 then ['\n', '\n']
       else List.replicate ((rest.takeWhile (· = '\n')).length + 1) '\n') ++
        collapseNewlines (rest.dropWhile (· = '\n'))
    else c :: collapseNewlines rest
  termination_by l => l.length
  decreasing_by
  · have := dropWhile_length_le (fun x => decide (x = '\n')) rest
    simp only [List.length_cons]
    omega
  · simp

/-- Embedding of String.prototype.trim. -/
def jsTrim (l : List Char) : List Char :=
  ((l.dropWhile isJsWhitespace).reverse.dropWhile isJsWhitespace).reverse

/-- Embedding of sanitizeMarkdownContent from src/src/utils/markdown.ts:
normalise CRLF, strip ref, det and bbox tag blocks, squeeze runs of three or
more newlines down to two, and trim; the empty (falsy) input short-circuits. -/
def sanitizeMarkdownContent (input : List Char) : List Char :=
  if input = [] then []
  else
    jsTrim (collapseNewlines
      (removeDelimited '<' ('|' :: ('b' :: 'b' :: 'o' :: 'x' :: '|' :: '>' :: []))
        '<' ('|' :: ('/' :: 'b' :: 'b' :: 'o' :: 'x' :: '|' :: '>' :: []))
        (removeDelimited '<' ('|' :: ('d' :: 'e' :: 't' :: '|' :: '>' :: []))
          '<' ('|' :: ('/' :: 'd' :: 'e' :: 't' :: '|' :: '>' :: []))
          (removeDelimited '<' ('|' :: ('r' :: 'e' :: 'f' :: '|' :: '>' :: []))
            '<' ('|' :: ('/' :: 'r' :: 'e' :: 'f' :: '|' :: '>' :: []))
            (replaceCRLF input)))))

/-- Embedding of .replace of the whitespace-run collapsing regex: every maximal
run of JavaScript whitespace becomes a single space. -/
def collapseWs : List Char → List Char
  | [] => []
  | c :: rest =>
    if isJsWhitespace c then ' ' :: collapseWs (rest.dropWhile isJsWhitespace)
    else c :: collapseWs rest
  termination_by l => l.length
  decreasing_by
  · have := dropWhile_length_le isJsWhitespace rest
    simp only [List.length_cons]
    omega
  · simp

/-- The sanitized, whitespace-collapsed, trimmed content computed inside
buildMarkdownPreview. -/
def previewContent (input : List Char) : List Char :=
  jsTrim (collapseWs (sanitizeMarkdownContent input))

/-- Embedding of buildMarkdownPreview from src/src/utils/markdown.ts. -/
def buildMarkdownPreview (input : List Char) (maxLength : Nat) : List Char :=
  let sanitized := previewContent input
  if sanitized = [] then []
  else if sanitized.length ≤ maxLength then sanitized
  else sanitized.take (maxLength - 1) ++ ['…']

/-! ## Viewer store (src/src/state/viewerStore.ts) -/

/-- The four results tabs of the reviewer workspace. -/
inductive ResultsTab
  | fields
  | tables
  | canonical
  | raw
  deriving DecidableEq, Repr

/-- The zustand viewer store state from src/src/state/viewerStore.ts. -/
structure ViewerState where
  jobId : Option String
  currentPage : Nat
  totalPages : Nat
  selectedTab : ResultsTab
  zoom : Rat
  showBoundingBoxes : Bool
  deriving DecidableEq, Repr

/-- Embedding of the setJobId action: zustand merges the returned partial
state into the current state, so only the four listed fields change.  The
optional totalPages argument is modelled as an Option, with the nullish
coalescing default of 0. -/
def setJobId (s : ViewerState) (jobId : Option String) (totalPages : Option Nat) :
    ViewerState :=
  { s with
    jobId := jobId
    currentPage := 1
    totalPages := totalPages.getD 0
    selectedTab := ResultsTab.fields }

/-! ## Page Orientation Selector

Modelled from the spec: backend/utils/auto_rotate_lines.py (the
choose_best_rotation scorer and its gating) is documented in src/README.md and
section 4.1 of the specification but its source is not in the repository
snapshot.  The four axis-aligned candidate angles, the confidence gate and the
insufficient-evidence failure path are fixed by the specification; the numeric
signal formulas are not, so the fused per-angle score is modelled as the
projection-profile regularity score the specification describes as the
fallback scorer. -/

/-- Modelled from the spec: a preprocessed (grayscale, denoised, thresholded)
page image, held as a row-major ink mask with its dimensions. -/
structure PageImage where
  width : Nat
  height : Nat
  pixels : List Bool
  deriving DecidableEq, Repr

/-- Modelled from the spec: the four axis-aligned candidate angles. -/
inductive Angle
  | deg0
  | deg90
  | deg180
  | deg270
  deriving DecidableEq, Repr

/-- Modelled from the spec: an orientation decision with chosen angle, fused
confidence, margin over the runner-up, and the applied flag. -/
structure OrientationDecision where
  angle : Angle
  confidence : Rat
  margin : Rat
  applied : Bool
  deriving DecidableEq, Repr

/-- Modelled from the spec: the minimum absolute confidence threshold and the
configured margin of the confidence gate. -/
structure OrientationConfig where
  minConfidence : Rat
  minMargin : Rat
  deriving DecidableEq, Repr

/-- Ink value of one pixel of the mask. -/
def pixelAt (img : PageImage) (r c : Nat) : Bool :=
  img.pixels.getD (r * img.width + c) false

/-- Total ink of the mask. -/
def totalInk (img : PageImage) : Nat :=
  img.pixels.countP id

/-- Row-wise ink sum of the horizontal projection profile. -/
def rowInk (img : PageImage) (r : Nat) : Nat :=
  ((List.range img.width).filter (fun c => pixelAt img r c)).length

/-- Number of rows of the projection profile that carry ink. -/
def inkedRowCount (img : PageImage) : Nat :=
  ((List.range img.height).filter (fun r => 0 < rowInk img r)).length

/-- Modelled from the spec: the virtual quarter-turn rotation used to evaluate
each candidate angle against the projection profile. -/
def rotateQuarter (img : PageImage) : PageImage :=
  { width := img.height
    height := img.width
    pixels := (List.range (img.width * img.height)).map (fun i =>
      pixelAt img (i % img.height) (img.width - 1 - i / img.height)) }

/-- Modelled from the spec: the projection-profile regularity score of one
candidate angle, normalised into the unit interval. -/
def profileScore (img : PageImage) : Rat :=
  if img.height = 0 then 0 else (inkedRowCount img : Rat) / (img.height : Rat)

/-- Modelled from the spec: fused per-candidate-angle scores for the four
angles; a degenerate image (empty or zero ink) yields no evidence, the
internal numeric failure case of section 4.1. -/
def fuseScores (img : PageImage) : Option (Rat × Rat × Rat × Rat) :=
  if img.width = 0 || img.height = 0 || totalInk img = 0 then none
  else
    some (profileScore img,
      profileScore (rotateQuarter img),
      profileScore (rotateQuarter (rotateQuarter img)),
      profileScore (rotateQuarter (rotateQuarter (rotateQuarter img))))

/-- Modelled from the spec: the top candidate (angle and score) together with
the runner-up score, ties resolved in the fixed angle order. -/
def topAndRunner (s : Rat × Rat × Rat × Rat) : (Angle × Rat) × Rat :=
  if s.2.1 ≤ s.1 ∧ s.2.2.1 ≤ s.1 ∧ s.2.2.2 ≤ s.1 then
    ((Angle.deg0, s.1), max s.2.1 (max s.2.2.1 s.2.2.2))
  else if s.2.2.1 ≤ s.2.1 ∧ s.2.2.2 ≤ s.2.1 then
    ((Angle.deg90, s.2.1), max s.1 (max s.2.2.1 s.2.2.2))
  else if s.2.2.2 ≤ s.2.2.1 then
    ((Angle.deg180, s.2.2.1), max s.1 (max s.2.1 s.2.2.2))
  else
    ((Angle.deg270, s.2.2.2), max s.1 (max s.2.1 s.2.2.1))

/-- Modelled from the spec: the no-rotation decision returned in the worst
case (angle 0, confidence 0, not applied). -/
def noRotation : OrientationDecision :=
  ⟨Angle.deg0, 0, 0, false⟩

/-- Modelled from the spec: the two acceptance conditions of section 4.1 step
5 on fused scores: the top candidate exceeds the minimum absolute confidence
threshold, and exceeds the runner-up by at least the configured margin. -/
def gateCond (s : Rat × Rat × Rat × Rat) (cfg : OrientationConfig) : Prop :=
  cfg.minConfidence < (topAndRunner s).1.2 ∧
    cfg.minMargin ≤ (topAndRunner s).1.2 - (topAndRunner s).2

instance (s : Rat × Rat × Rat × Rat) (cfg : OrientationConfig) :
    Decidable (gateCond s cfg) :=
  inferInstanceAs (Decidable (And _ _))

/-- Modelled from the spec: the confidence gate of section 4.1 step 5.  It
passes only when both acceptance conditions hold on the fused scores. -/
def gatePasses (img : PageImage) (cfg : OrientationConfig) : Bool :=
  match fuseScores img with
  | none => false
  | some s => decide (gateCond s cfg)

/-- Modelled from the spec: selectOrientation, the orientation selector
exposed to the job pipeline.  Signals are fused, the confidence gate is
applied, and any internal numeric failure degrades to the no-rotation
decision instead of an error. -/
def selectOrientation (img : PageImage) (cfg : OrientationConfig) :
    OrientationDecision :=
  match fuseScores img with
  | none => noRotation
  | some s =>
    if gateCond s cfg then
      ⟨(topAndRunner s).1.1, (topAndRunner s).1.2,
        (topAndRunner s).1.2 - (topAndRunner s).2,
        decide ((topAndRunner s).1.1 ≠ Angle.deg0)⟩
    else
      ⟨Angle.deg0, (topAndRunner s).1.2,
        (topAndRunner s).1.2 - (topAndRunner s).2, false⟩

/-! ## Table Continuation Engine

Modelled from the spec: backend/services/table_grouping.py (assign_table_groups
and merge_table_segments) is documented in src/README.md and sections 4.2-4.5
of the specification, but its source is not in the repository snapshot.  The
definitions below follow the matching rule, duplicate row trimmer, header
propagator and logical table merger of those sections. -/

/-- Modelled from the spec: a table candidate as produced per page by the
recognizer; bounding-box width in page-relative units, optional caption,
optional ordered header labels, ordered rows of cell values. -/
structure TableCandidate where
  id : String
  page : Nat
  bboxWidth : Nat
  caption : Option String
  headers : Option (List String)
  rows : List (List String)
  deriving DecidableEq, Repr

/-- Lower-case image of a string, character by character. -/
def lowerString (s : String) : String :=
  String.mk (s.data.map Char.toLower)

/-- Whitespace-trimmed image of a string. -/
def trimString (s : String) : String :=
  String.mk (((s.data.dropWhile Char.isWhitespace).reverse.dropWhile
    Char.isWhitespace).reverse)

/-- Modelled from the spec: trimmed, case-normalized form of one cell value. -/
def normalizeCell (s : String) : String :=
  lowerString (trimString s)

/-- Modelled from the spec: the normalized row signature, the concatenation of
the normalized cell values of a row. -/
def rowSignature (r : List String) : String :=
  String.join (r.map normalizeCell)

/-- Modelled from the spec: a group member as carried by the matcher state:
the original candidate, its rows after duplicate trimming, its effective
(possibly propagated) headers, the inferredHeaders flag, whether its leading
row was trimmed, and the identifier of the segment it continues. -/
structure Fragment where
  cand : TableCandidate
  rows : List (List String)
  headers : Option (List String)
  inferredHeaders : Bool
  trimmedLeading : Bool
  continuationOf : Option String
  deriving DecidableEq, Repr

/-- Modelled from the spec: a table group, an identifier plus the ordered list
of members judged to be one continuation chain. -/
structure TableGroup where
  gid : Nat
  members : List Fragment
  deriving DecidableEq, Repr

/-- Modelled from the spec: matching condition 2, bounding-box width quotient
within the interval from 0.65 to 1.35, stated multiplicatively. -/
def widthCompatible (cw tw : Nat) : Bool :=
  65 * tw ≤ 100 * cw && 100 * cw ≤ 135 * tw

/-- Modelled from the spec: matching condition 3, header overlap (shared
labels over the larger header count) of at least 0.60 when both sides carry
headers; a side without headers defers to header propagation. -/
def headerCompatible (ch th : Option (List String)) : Bool :=
  match ch, th with
  | some hc, some ht =>
    3 * max hc.length ht.length ≤ 5 * (hc.dedup.filter (fun l => ht.contains l)).length
  | _, _ => true

/-- Column count of a candidate side: header count when headers are present,
otherwise the width of the first row. -/
def colCount (headers : Option (List String)) (rows : List (List String)) : Nat :=
  match headers with
  | some h => h.length
  | none => (rows.headD []).length

/-- Modelled from the spec: matching condition 4, equal column counts unless
one side's headers are missing or inferred. -/
def columnCompatible (c : TableCandidate) (t : Fragment) : Bool :=
  colCount c.headers c.rows == colCount t.headers t.rows ||
    c.headers.isNone || t.headers.isNone || t.inferredHeaders

/-- Modelled from the spec: matching condition 5, captions equal up to case
when both are present. -/
def captionCompatible (cc tc : Option String) : Bool :=
  match cc, tc with
  | some a, some b => lowerString a == lowerString b
  | _, _ => true

/-- Modelled from the spec: the full matching rule of section 4.2, evaluated
against the current tail segment of an open group, condition 1 being page
adjacency across exactly one page boundary. -/
def matchesTail (c : TableCandidate) (t : Fragment) : Bool :=
  c.page == t.cand.page + 1 &&
  widthCompatible c.bboxWidth t.cand.bboxWidth &&
  headerCompatible c.headers t.headers &&
  columnCompatible c t &&
  captionCompatible c.caption t.cand.caption

/-- Modelled from the spec: the fragment opening a new group: untouched rows,
its own headers, no predecessor. -/
def initFragment (c : TableCandidate) : Fragment :=
  ⟨c, c.rows, c.headers, false, false, none⟩

/-- Modelled from the spec: the duplicate row trimmer's test: the normalized
signature of the tail segment's last row equals the signature of the new
segment's first row. -/
def trimsLeading (c : TableCandidate) (t : Fragment) : Bool :=
  match t.rows.getLast?, c.rows.head? with
  | some lr, some fr => rowSignature lr == rowSignature fr
  | _, _ => false

/-- Modelled from the spec: the continuation fragment built from a matched
candidate, applying the duplicate row trimmer and the header propagator. -/
def mkContinuation (c : TableCandidate) (t : Fragment) : Fragment :=
  { cand := c
    rows := if trimsLeading c t then c.rows.drop 1 else c.rows
    headers := if c.headers.isSome then c.headers else t.headers
    inferredHeaders := c.headers.isNone
    trimmedLeading := trimsLeading c t
    continuationOf := some t.cand.id }

/-- Modelled from the spec: match a candidate against the open groups held in
most-recent-first order, appending it to the first group whose tail satisfies
the matching rule (the most-recent-wins tie-break); the matched group is
returned separately so the caller can move it to the front. -/
def insertCandidate : List TableGroup → TableCandidate → Option (TableGroup × List TableGroup)
  | [], _ => none
  | g :: gs, c =>
    match g.members.getLast? with
    | some t =>
      if matchesTail c t then some (⟨g.gid, g.members ++ [mkContinuation c t]⟩, gs)
      else (insertCandidate gs c).map (fun p => (p.1, g :: p.2))
    | none => (insertCandidate gs c).map (fun p => (p.1, g :: p.2))

/-- Modelled from the spec: one matcher step.  A matched candidate extends its
group, which becomes the most recent; an unmatched candidate starts a new
group with itself as sole member, never an error. -/
def stepState (st : List TableGroup × Nat) (c : TableCandidate) :
    List TableGroup × Nat :=
  match insertCandidate st.1 c with
  | some (g2, rest) => (g2 :: rest, st.2)
  | none => (⟨st.2, [initFragment c]⟩ :: st.1, st.2 + 1)

/-- Sequential matcher loop over the page-ordered candidate stream. -/
def runMatcherAux : List TableCandidate → List TableGroup × Nat → List TableGroup × Nat
  | [], st => st
  | c :: cs, st => runMatcherAux cs (stepState st c)

/-- Modelled from the spec: assign_table_groups, grouping the page-ordered
candidate stream into continuation chains. -/
def assignTableGroups (cands : List TableCandidate) : List TableGroup :=
  (runMatcherAux cands ([], 0)).1

/-- Row start offsets of the members of a group, accumulated from the
post-trim row counts. -/
def rowStartIndexesFrom (acc : Nat) : List Fragment → List Nat
  | [] => []
  | f :: fs => acc :: rowStartIndexesFrom (acc + f.rows.length) fs

/-- Modelled from the spec: per-fragment rowStartIndex values, the running sum
of the deduplicated (post-trim) row counts of the earlier members. -/
def rowStartIndexes (fs : List Fragment) : List Nat :=
  rowStartIndexesFrom 0 fs

/-- Modelled from the spec: emit one fragment's rows after the already emitted
rows, defensively dropping the fragment's leading row when its signature
duplicates the immediately preceding emitted row; the second component counts
the rows dropped by this defensive re-check. -/
def appendFragmentRows (acc : List (List String)) (rs : List (List String)) :
    List (List String) × Nat :=
  match acc.getLast?, rs with
  | some prev, r :: rest =>
    if rowSignature prev == rowSignature r then (acc ++ rest, 1)
    else (acc ++ r :: rest, 0)
  | _, _ => (acc ++ rs, 0)

/-- Concatenation loop of the logical table merger, carrying the emitted rows
and the defensive drop count. -/
def mergeRowsAux : List (List String) × Nat → List Fragment → List (List String) × Nat
  | acc, [] => acc
  | acc, f :: fs => mergeRowsAux ((appendFragmentRows acc.1 f.rows).1,
      acc.2 + (appendFragmentRows acc.1 f.rows).2) fs

/-- Modelled from the spec: a merged logical table: group identifier, the
header set in effect after propagation, the deduplicated concatenation of the
member rows, the per-fragment rowStartIndex values and inferredHeaders
flags. -/
structure MergedTable where
  gid : Nat
  headers : Option (List String)
  rows : List (List String)
  rowStartIndex : List Nat
  inferredHeaders : List Bool
  deriving DecidableEq, Repr

/-- Modelled from the spec: merge_table_segments for one group. -/
def mergeGroup (g : TableGroup) : MergedTable :=
  { gid := g.gid
    headers := g.members.getLast?.bind (fun f => f.headers)
    rows := (mergeRowsAux ([], 0) g.members).1
    rowStartIndex := rowStartIndexes g.members
    inferredHeaders := g.members.map (fun f => f.inferredHeaders) }

/-- Modelled from the spec: groupTables, the table interface exposed to the
job pipeline: group the candidates, then merge every group. -/
def groupTables (cands : List TableCandidate) : List MergedTable :=
  (assignTableGroups cands).map mergeGroup

/-- Number of rows dropped by the merger's defensive duplicate re-check. -/
def dropCount (g : TableGroup) : Nat :=
  (mergeRowsAux ([], 0) g.members).2

/-- Number of members whose leading row the duplicate row trimmer dropped. -/
def trimCount (g : TableGroup) : Nat :=
  g.members.countP (fun f => f.trimmedLeading)

/-- Total row count of the original member candidates of a group. -/
def origRowCount (g : TableGroup) : Nat :=
  (g.members.map (fun f => f.cand.rows.length)).sum

/-- All candidates held by a list of groups, in group order. -/
def flattenCands : List TableGroup → List TableCandidate
  | [] => []
  | g :: gs => g.members.map (fun f => f.cand) ++ flattenCands gs

/-- Number of rows of a list whose signature equals the given signature. -/
def sigCount (s : String) (rows : List (List String)) : Nat :=
  rows.countP (fun r => rowSignature r == s)

/-- Consecutive-page relation between adjacent members of a group. -/
def pageStep (a b : Fragment) : Prop :=
  b.cand.page = a.cand.page + 1

/-- Row accounting of one fragment: its post-trim row count plus its trimmed
row, when one was trimmed, gives back its candidate's original row count. -/
def fragAccounted (f : Fragment) : Prop :=
  f.rows.length + (if f.trimmedLeading then 1 else 0) = f.cand.rows.length

/-! ## Helper lemmas -/

theorem mkContinuation_cand (c : TableCandidate) (t : Fragment) :
    (mkContinuation c t).cand = c :=
  rfl

theorem initFragment_cand (c : TableCandidate) :
    (initFragment c).cand = c :=
  rfl

theorem matchesTail_page {c : TableCandidate} {t : Fragment}
    (h : matchesTail c t = true) : c.page = t.cand.page + 1 := by
  simp only [matchesTail, Bool.and_eq_true, beq_iff_eq] at h
  exact h.1.1.1.1

theorem insertCandidate_eq_some :
    ∀ {l : List TableGroup} {c : TableCandidate} {g2 : TableGroup}
      {rest : List TableGroup},
      insertCandidate l c = some (g2, rest) →
      ∃ l1 g l2 t, l = l1 ++ g :: l2 ∧ rest = l1 ++ l2 ∧
        g.members.getLast? = some t ∧ matchesTail c t = true ∧
        g2 = ⟨g.gid, g.members ++ [mkContinuation c t]⟩ := by
  intro l
  induction l with
  | nil => intro c g2 rest h; simp [insertCandidate] at h
  | cons g gs ih =>
    intro c g2 rest h
    simp only [insertCandidate] at h
    split at h
    · rename_i t hgl
      split at h
      · rename_i hm
        simp only [Option.some.injEq, Prod.mk.injEq] at h
        exact ⟨[], g, gs, t, rfl, h.2.symm, hgl, hm, h.1.symm⟩
      · rw [Option.map_eq_some'] at h
        obtain ⟨⟨a1, a2⟩, ha, heq⟩ := h
        simp only [Prod.mk.injEq] at heq
        obtain ⟨l1, g0, l2, t0, hl, hr, hgl0, hm0, hg2⟩ := ih ha
        refine ⟨g :: l1, g0, l2, t0, by rw [hl]; rfl, ?_, hgl0, hm0, ?_⟩
        · rw [← heq.2, hr]; rfl
        · rw [← heq.1, hg2]
    · rw [Option.map_eq_some'] at h
      obtain ⟨⟨a1, a2⟩, ha, heq⟩ := h
      simp only [Prod.mk.injEq] at heq
      obtain ⟨l1, g0, l2, t0, hl, hr, hgl0, hm0, hg2⟩ := ih ha
      refine ⟨g :: l1, g0, l2, t0, by rw [hl]; rfl, ?_, hgl0, hm0, ?_⟩
      · rw [← heq.2, hr]; rfl
      · rw [← heq.1, hg2]

theorem stepState_cases (st : List TableGroup × Nat) (c : TableCandidate) :
    (∃ l1 g l2 t, st.1 = l1 ++ g :: l2 ∧ g.members.getLast? = some t ∧
      matchesTail c t = true ∧
      (stepState st c).1 =
        (⟨g.gid, g.members ++ [mkContinuation c t]⟩ : TableGroup) :: (l1 ++ l2)) ∨
    (insertCandidate st.1 c = none ∧
      (stepState st c).1 = (⟨st.2, [initFragment c]⟩ : TableGroup) :: st.1) := by
  cases h : insertCandidate st.1 c with
  | none => exact Or.inr ⟨rfl, by simp [stepState, h]⟩
  | some p =>
    obtain ⟨l1, g, l2, t, hl, hr, hgl, hm, hg2⟩ := insertCandidate_eq_some h
    exact Or.inl ⟨l1, g, l2, t, hl, hgl, hm, by simp [stepState, h, hg2, hr]⟩

theorem runMatcherAux_groups_inv (P : TableGroup → Prop)
    (hstep : ∀ st c, (∀ g ∈ st.1, P g) → ∀ g ∈ (stepState st c).1, P g) :
    ∀ (cs : List TableCandidate) (st : List TableGroup × Nat),
      (∀ g ∈ st.1, P g) → ∀ g ∈ (runMatcherAux cs st).1, P g := by
  intro cs
  induction cs with
  | nil => intro st h; exact h
  | cons c cs ih => intro st h; exact ih _ (hstep st c h)

theorem mem_insert_rest {l1 l2 : List TableGroup} {g0 g : TableGroup}
    (h : g ∈ l1 ++ l2) : g ∈ l1 ++ g0 :: l2 := by
  rcases List.mem_append.mp h with h | h
  · exact List.mem_append_left _ h
  · exact List.mem_append_right _ (List.mem_cons_of_mem _ h)

theorem mem_insert_self (l1 l2 : List TableGroup) (g0 : TableGroup) :
    g0 ∈ l1 ++ g0 :: l2 :=
  List.mem_append_right _ (List.mem_cons_self _ _)

theorem stepState_chain (st : List TableGroup × Nat) (c : TableCandidate)
    (h : ∀ g ∈ st.1, List.Chain' pageStep g.members) :
    ∀ g ∈ (stepState st c).1, List.Chain' pageStep g.members := by
  rcases stepState_cases st c with ⟨l1, g0, l2, t, hl, hgl, hm, hout⟩ | ⟨_, hout⟩
  · rw [hout]
    intro g hg
    rcases List.mem_cons.mp hg with rfl | hg2
    · show List.Chain' pageStep (g0.members ++ [mkContinuation c t])
      rw [List.chain'_append]
      refine ⟨h g0 (by rw [hl]; exact mem_insert_self l1 l2 g0),
        List.chain'_singleton _, ?_⟩
      intro x hx y hy
      rw [Option.mem_def, hgl, Option.some.injEq] at hx
      rw [Option.mem_def, List.head?_cons, Option.some.injEq] at hy
      subst hx hy
      show (mkContinuation c t).cand.page = t.cand.page + 1
      rw [mkContinuation_cand]
      exact matchesTail_page hm
    · exact h g (by rw [hl]; exact mem_insert_rest hg2)
  · rw [hout]
    intro g hg
    rcases List.mem_cons.mp hg with rfl | hg2
    · exact List.chain'_singleton _
    · exact h g hg2

theorem rowStartIndexesFrom_getD (fs : List Fragment) :
    ∀ (acc k : Nat), k < fs.length →
      (rowStartIndexesFrom acc fs).getD k 0 =
        acc + ((fs.take k).map (fun f => f.rows.length)).sum := by
  induction fs with
  | nil => intro acc k h; simp at h
  | cons f fs ih =>
    intro acc k h
    cases k with
    | zero => simp [rowStartIndexesFrom]
    | succ k =>
      simp only [rowStartIndexesFrom, List.getD_cons_succ, List.take_succ_cons,
        List.map_cons, List.sum_cons]
      rw [ih _ k (by simpa using h)]
      omega

theorem flattenCands_append :
    ∀ a b : List TableGroup, flattenCands (a ++ b) = flattenCands a ++ flattenCands b := by
  intro a b
  induction a with
  | nil => simp [flattenCands]
  | cons g gs ih => simp [flattenCands, ih]

theorem stepState_flatten (st : List TableGroup × Nat) (c : TableCandidate) :
    (flattenCands (stepState st c).1).Perm (c :: flattenCands st.1) := by
  rcases stepState_cases st c with ⟨l1, g0, l2, t, hl, hgl, hm, hout⟩ | ⟨_, hout⟩
  · rw [hout, hl]
    simp only [flattenCands, flattenCands_append, List.map_append, List.map_cons,
      List.map_nil, mkContinuation_cand, List.append_assoc, List.singleton_append,
      List.cons_append, List.nil_append]
    refine List.Perm.trans List.perm_middle (List.Perm.cons c ?_)
    refine List.Perm.trans List.perm_append_comm ?_
    rw [List.append_assoc]
    exact List.Perm.append_left _ List.perm_append_comm
  · rw [hout]
    simp only [flattenCands, List.map_cons, List.map_nil, initFragment_cand,
      List.singleton_append, List.nil_append]
    exact List.Perm.refl _

theorem runMatcherAux_flatten :
    ∀ (cs : List TableCandidate) (st : List TableGroup × Nat),
      (flattenCands (runMatcherAux cs st).1).Perm (flattenCands st.1 ++ cs) := by
  intro cs
  induction cs with
  | nil => intro st; simp [runMatcherAux]
  | cons c cs ih =>
    intro st
    have h1 := ih (stepState st c)
    have h2 : (flattenCands (stepState st c).1 ++ cs).Perm
        ((c :: flattenCands st.1) ++ cs) :=
      (stepState_flatten st c).append_right cs
    have h3 : ((c :: flattenCands st.1) ++ cs).Perm
        (flattenCands st.1 ++ (c :: cs)) := by
      rw [List.cons_append]
      exact List.perm_middle.symm
    exact (h1.trans h2).trans h3

theorem appendFragmentRows_nil (rs : List (List String)) :
    appendFragmentRows [] rs = (rs, 0) := by
  cases rs <;> simp [appendFragmentRows]

theorem appendFragmentRows_spec (acc rs : List (List String)) :
    (appendFragmentRows acc rs).1.length + (appendFragmentRows acc rs).2 =
      acc.length + rs.length := by
  unfold appendFragmentRows
  cases hgl : acc.getLast? with
  | none => cases rs <;> simp
  | some prev =>
    cases rs with
    | nil => simp
    | cons r rest =>
      by_cases hsig : rowSignature prev == rowSignature r <;>
        simp [hsig, List.length_append] <;> omega

theorem mergeRowsAux_spec :
    ∀ (fs : List Fragment) (acc : List (List String) × Nat),
      (mergeRowsAux acc fs).1.length + (mergeRowsAux acc fs).2 =
        acc.1.length + acc.2 + (fs.map (fun f => f.rows.length)).sum := by
  intro fs
  induction fs with
  | nil => intro acc; simp [mergeRowsAux]
  | cons f fs ih =>
    intro acc
    simp only [mergeRowsAux, List.map_cons, List.sum_cons]
    rw [ih]
    dsimp only
    have := appendFragmentRows_spec acc.1 f.rows
    omega

theorem initFragment_accounted (c : TableCandidate) :
    fragAccounted (initFragment c) := by
  simp [fragAccounted, initFragment]

theorem mkContinuation_accounted (c : TableCandidate) (t : Fragment) :
    fragAccounted (mkContinuation c t) := by
  unfold fragAccounted mkContinuation
  by_cases h : trimsLeading c t = true
  · have hne : c.rows ≠ [] := by
      intro he
      unfold trimsLeading at h
      rw [he] at h
      cases hgl : t.rows.getLast? <;> rw [hgl] at h <;> simp at h
    have hpos : 1 ≤ c.rows.length := by
      cases hc : c.rows with
      | nil => exact absurd hc hne
      | cons a as => simp
    simp only [h, if_true, List.length_drop]
    omega
  · simp only [h, if_false]
    simp only [Bool.not_eq_true] at h
    simp [h]

theorem rows_sum_accounted :
    ∀ fs : List Fragment, (∀ f ∈ fs, fragAccounted f) →
      (fs.map (fun f => f.rows.length)).sum +
          fs.countP (fun f => f.trimmedLeading) =
        (fs.map (fun f => f.cand.rows.length)).sum := by
  intro fs
  induction fs with
  | nil => intro _; simp
  | cons f fs ih =>
    intro h
    have hf := h f (List.mem_cons_self _ _)
    have hr := ih (fun x hx => h x (List.mem_cons_of_mem _ hx))
    simp only [List.map_cons, List.sum_cons, List.countP_cons]
    unfold fragAccounted at hf
    by_cases ht : f.trimmedLeading = true <;> simp [ht] at hf ⊢ <;> omega

theorem stepState_accounted (st : List TableGroup × Nat) (c : TableCandidate)
    (h : ∀ g ∈ st.1, ∀ f ∈ g.members, fragAccounted f) :
    ∀ g ∈ (stepState st c).1, ∀ f ∈ g.members, fragAccounted f := by
  rcases stepState_cases st c with ⟨l1, g0, l2, t, hl, hgl, hm, hout⟩ | ⟨_, hout⟩
  · rw [hout]
    intro g hg
    rcases List.mem_cons.mp hg with rfl | hg2
    · intro f hf
      rcases List.mem_append.mp hf with hf | hf
      · exact h g0 (by rw [hl]; exact mem_insert_self l1 l2 g0) f hf
      · rw [List.mem_singleton] at hf
        rw [hf]
        exact mkContinuation_accounted c t
    · exact h g (by rw [hl]; exact mem_insert_rest hg2)
  · rw [hout]
    intro g hg
    rcases List.mem_cons.mp hg with rfl | hg2
    · intro f hf
      rw [List.mem_singleton] at hf
      rw [hf]
      exact initFragment_accounted c
    · exact h g hg2

theorem stepState_headInit (st : List TableGroup × Nat) (c : TableCandidate)
    (h : ∀ g ∈ st.1, ∀ f, g.members.head? = some f → f = initFragment f.cand) :
    ∀ g ∈ (stepState st c).1, ∀ f, g.members.head? = some f →
      f = initFragment f.cand := by
  rcases stepState_cases st c with ⟨l1, g0, l2, t, hl, hgl, hm, hout⟩ | ⟨_, hout⟩
  · rw [hout]
    intro g hg
    rcases List.mem_cons.mp hg with rfl | hg2
    · intro f hf
      have hne : g0.members ≠ [] := by
        intro he
        rw [he] at hgl
        simp at hgl
      rw [show (⟨g0.gid, g0.members ++ [mkContinuation c t]⟩ : TableGroup).members =
          g0.members ++ [mkContinuation c t] from rfl,
        List.head?_append_of_ne_nil _ hne] at hf
      exact h g0 (by rw [hl]; exact mem_insert_self l1 l2 g0) f hf
    · exact h g (by rw [hl]; exact mem_insert_rest hg2)
  · rw [hout]
    intro g hg
    rcases List.mem_cons.mp hg with rfl | hg2
    · intro f hf
      simp only [List.head?_cons, Option.some.injEq] at hf
      rw [← hf]
      rfl
    · exact h g hg2

/-- The merger is the identity on a group holding one untouched fragment. -/
theorem mergeGroup_initFragment (gid : Nat) (c : TableCandidate) :
    mergeGroup ⟨gid, [initFragment c]⟩ =
      ⟨gid, c.headers, c.rows, [0], [false]⟩ := by
  simp [mergeGroup, mergeRowsAux, appendFragmentRows_nil, rowStartIndexes,
    rowStartIndexesFrom, initFragment]

/-- Example candidate with headers, page 1. -/
def candRev : TableCandidate :=
  ⟨"a", 1, 100, none, some ["Rev", "Desc", "Total"],
    [["1", "x", "10"], ["2", "y", "20"], ["3", "z", "30"]]⟩

/-- Example headerless continuation candidate, page 2, repeating the last row
of candRev. -/
def candNoHead : TableCandidate :=
  ⟨"b", 2, 100, none, none, [["3", "z", "30"], ["4", "w", "40"]]⟩

/-- Example single-member group holding candRev. -/
def groupRev : TableGroup :=
  ⟨0, [initFragment candRev]⟩

/-- Stub candidate for fragments whose candidate content is irrelevant. -/
def candStub : TableCandidate :=
  ⟨"s", 1, 0, none, none, []⟩

/-- Fragment with a given number of post-trim rows. -/
def fragRows (n : Nat) : Fragment :=
  ⟨candStub, List.replicate n ["r"], none, false, false, none⟩

/-- Three-fragment group with post-trim row counts 5, 4 and 3. -/
def group543 : TableGroup :=
  ⟨7, [fragRows 5, fragRows 4, fragRows 3]⟩

/-- Degenerate page image: pixels present but zero ink. -/
def imgZeroInk : PageImage :=
  ⟨2, 2, [false, false, false, false]⟩

/-- Malformed page image with no pixels at all. -/
def imgEmpty : PageImage :=
  ⟨0, 0, []⟩

/-- Sample markdown input for the preview witness. -/
def sampleMd : List Char :=
  ("  Hello   " ++ "<|ref|>IGNORE<|/ref|>" ++ " world today").data

/-- Example candidate on page 4, a gap of two pages behind candRev. -/
def candFar : TableCandidate :=
  ⟨"f", 4, 100, none, none, []⟩

/-- Example continuation candidate with headers whose first row repeats the
last row of candRev. -/
def candB : TableCandidate :=
  ⟨"b2", 2, 105, none, some ["Rev", "Desc", "Total"],
    [["3", "z", "30"], ["4", "w", "40"]]⟩

/-! ## Claims -/

/-- C1: for every table group, the rowStartIndex recorded for member k in the
merged output equals the sum of the deduplicated (post-trim) row counts of
members 0..k-1. -/
theorem mergeGroup_rowStartIndex_eq_sum (g : TableGroup) (k : Nat)
    (h : k < g.members.length) :
    (mergeGroup g).rowStartIndex.getD k 0 =
      ((g.members.take k).map (fun f => f.rows.length)).sum := by
  simpa [mergeGroup, rowStartIndexes] using
    rowStartIndexesFrom_getD g.members 0 k h

/-- Witness for C1: a three-fragment group with deduplicated row counts 5, 4
and 3 has rowStartIndex values 0, 5 and 9. -/
theorem mergeGroup_rowStartIndex_eq_sum_witness :
    ((mergeGroup group543).rowStartIndex.getD 0 0 =
      ((group543.members.take 0).map (fun f => f.rows.length)).sum) ∧
    ((mergeGroup group543).rowStartIndex.getD 1 0 =
      ((group543.members.take 1).map (fun f => f.rows.length)).sum) ∧
    ((mergeGroup group543).rowStartIndex.getD 2 0 =
      ((group543.members.take 2).map (fun f => f.rows.length)).sum) ∧
    (mergeGroup group543).rowStartIndex = [0, 5, 9] :=
  ⟨mergeGroup_rowStartIndex_eq_sum group543 0 (by decide),
    mergeGroup_rowStartIndex_eq_sum group543 1 (by decide),
    mergeGroup_rowStartIndex_eq_sum group543 2 (by decide),
    by decide⟩

/-- C2: whenever the confidence gate fails (top candidate at or below the
minimum confidence threshold, or margin over the runner-up below the
configured margin, or no evidence at all), selectOrientation returns angle 0
and applied false, regardless of which candidate scored highest. -/
theorem selectOrientation_gate (img : PageImage) (cfg : OrientationConfig) :
    ((selectOrientation img cfg).applied = true → gatePasses img cfg = true) ∧
    (gatePasses img cfg = false →
      (selectOrientation img cfg).angle = Angle.deg0 ∧
        (selectOrientation img cfg).applied = false) := by
  have hfail : gatePasses img cfg = false →
      (selectOrientation img cfg).angle = Angle.deg0 ∧
        (selectOrientation img cfg).applied = false := by
    intro h
    unfold gatePasses at h
    unfold selectOrientation
    cases hf : fuseScores img with
    | none => exact ⟨rfl, rfl⟩
    | some s =>
      rw [hf] at h
      have hng : ¬ gateCond s cfg := of_decide_eq_false h
      simp [hng]
  refine ⟨?_, hfail⟩
  intro ha
  cases hgp : gatePasses img cfg with
  | false =>
    rw [(hfail hgp).2] at ha
    exact absurd ha (by simp)
  | true => rfl

/-- Witness for C2 at a malformed image and a demanding configuration. -/
theorem selectOrientation_gate_witness :
    (((selectOrientation imgEmpty ⟨1, 1⟩).applied = true →
        gatePasses imgEmpty ⟨1, 1⟩ = true) ∧
      (gatePasses imgEmpty ⟨1, 1⟩ = false →
        (selectOrientation imgEmpty ⟨1, 1⟩).angle = Angle.deg0 ∧
          (selectOrientation imgEmpty ⟨1, 1⟩).applied = false)) ∧
    ((selectOrientation imgEmpty ⟨1, 1⟩).angle = Angle.deg0 ∧
      (selectOrientation imgEmpty ⟨1, 1⟩).applied = false) :=
  ⟨selectOrientation_gate imgEmpty ⟨1, 1⟩,
    (selectOrientation_gate imgEmpty ⟨1, 1⟩).2 (by decide)⟩

/-- C5: a matched continuation fragment that carries no header labels
inherits the column definitions of the segment it continues, is marked
inferredHeaders, and the merged output's header labels are identical to the
predecessor's. -/
theorem headerPropagation (c : TableCandidate) (g : TableGroup) (t : Fragment)
    (_htail : g.members.getLast? = some t) (_hmatch : matchesTail c t = true)
    (hnone : c.headers = none) :
    (mkContinuation c t).headers = t.headers ∧
      (mkContinuation c t).inferredHeaders = true ∧
      (mergeGroup ⟨g.gid, g.members ++ [mkContinuation c t]⟩).headers = t.headers := by
  have h1 : (mkContinuation c t).headers = t.headers := by
    simp [mkContinuation, hnone]
  refine ⟨h1, by simp [mkContinuation, hnone], ?_⟩
  simp [mergeGroup, List.getLast?_concat, h1]

/-- Witness for C5: a headerless page-2 fragment continuing a page-1 fragment
with headers Rev, Desc, Total. -/
theorem headerPropagation_witness :
    (mkContinuation candNoHead (initFragment candRev)).headers =
        (initFragment candRev).headers ∧
      (mkContinuation candNoHead (initFragment candRev)).inferredHeaders = true ∧
      (mergeGroup ⟨groupRev.gid, groupRev.members ++
          [mkContinuation candNoHead (initFragment candRev)]⟩).headers =
        (initFragment candRev).headers :=
  headerPropagation candNoHead groupRev (initFragment candRev)
    (by decide) (by decide) rfl

/-- C7: selectOrientation is a total function, and any internal numeric
failure (degenerate image, zero ink) yields the worst-case no-rotation
decision: angle 0, confidence 0, applied false. -/
theorem selectOrientation_degenerate (img : PageImage) (cfg : OrientationConfig)
    (h : fuseScores img = none) :
    selectOrientation img cfg = noRotation ∧
      noRotation = ⟨Angle.deg0, 0, 0, false⟩ := by
  unfold selectOrientation
  rw [h]
  exact ⟨rfl, rfl⟩

/-- Witness for C7 at a zero-ink image. -/
theorem selectOrientation_degenerate_witness :
    selectOrientation imgZeroInk ⟨0, 0⟩ = noRotation ∧
      noRotation = ⟨Angle.deg0, 0, 0, false⟩ :=
  selectOrientation_degenerate imgZeroInk ⟨0, 0⟩ (by decide)

/-- C9: for maxLength at least 1, buildMarkdownPreview returns at most
maxLength characters, is empty exactly when the sanitized whitespace-collapsed
content is empty, and ends in a horizontal ellipsis when it truncates. -/
theorem buildMarkdownPreview_bound (s : List Char) (m : Nat) (hm : 1 ≤ m) :
    (buildMarkdownPreview s m).length ≤ m ∧
      (buildMarkdownPreview s m = [] ↔ previewContent s = []) ∧
      (m < (previewContent s).length →
        (buildMarkdownPreview s m).getLast? = some '…') := by
  simp only [buildMarkdownPreview]
  by_cases h1 : previewContent s = []
  · simp [h1]
  · rw [if_neg h1]
    by_cases h2 : (previewContent s).length ≤ m
    · rw [if_pos h2]
      exact ⟨h2, by simp [h1], fun hlt => absurd h2 (by omega)⟩
    · rw [if_neg h2]
      refine ⟨?_, ?_, fun _ => List.getLast?_concat _⟩
      · rw [List.length_append, List.length_take]
        simp only [List.length_cons, List.length_nil]
        omega
      · simp [h1, List.append_eq_nil]

/-- Witness for C9 at a sample input containing a ref tag and extra
whitespace, with maxLength 7. -/
theorem buildMarkdownPreview_bound_witness :
    (buildMarkdownPreview sampleMd 7).length ≤ 7 ∧
      (buildMarkdownPreview sampleMd 7 = [] ↔ previewContent sampleMd = []) ∧
      (7 < (previewContent sampleMd).length →
        (buildMarkdownPreview sampleMd 7).getLast? = some '…') :=
  buildMarkdownPreview_bound sampleMd 7 (by decide)

/-- C3: a candidate joins a group only when its page is exactly one past the
tail's page, so group members are consecutive by page, and a gap of two or
more pages never matches. -/
theorem pageAdjacency :
    (∀ (c : TableCandidate) (t : Fragment),
      matchesTail c t = true → c.page = t.cand.page + 1) ∧
    (∀ (c : TableCandidate) (t : Fragment),
      t.cand.page + 2 ≤ c.page → matchesTail c t = false) ∧
    (∀ (cands : List TableCandidate) (g : TableGroup),
      g ∈ assignTableGroups cands → List.Chain' pageStep g.members) := by
  refine ⟨fun c t h => matchesTail_page h, ?_, ?_⟩
  · intro c t hge
    cases hmt : matchesTail c t with
    | false => rfl
    | true =>
      have := matchesTail_page hmt
      omega
  · intro cands g hg
    exact runMatcherAux_groups_inv (fun g => List.Chain' pageStep g.members)
      stepState_chain cands ([], 0) (by simp) g hg

/-- Witness for C3 at concrete candidates: an adjacent pair matches with the
page-successor conclusion, a two-page gap never matches, and a matcher-built
group is page-consecutive. -/
theorem pageAdjacency_witness :
    candNoHead.page = (initFragment candRev).cand.page + 1 ∧
      matchesTail candFar (initFragment candRev) = false ∧
      List.Chain' pageStep (⟨0, [initFragment candRev]⟩ : TableGroup).members :=
  ⟨pageAdjacency.1 candNoHead (initFragment candRev) (by decide),
    pageAdjacency.2.1 candFar (initFragment candRev) (by decide),
    pageAdjacency.2.2 [candRev] ⟨0, [initFragment candRev]⟩ (by decide)⟩

/-- C6: the groups cover every candidate exactly once, an unmatched candidate
starts a new singleton group and becomes its tail, and grouping plus merging
is total, never an error. -/
theorem groupCoverage :
    (∀ cands : List TableCandidate,
      (flattenCands (assignTableGroups cands)).Perm cands) ∧
    (∀ (st : List TableGroup) (n : Nat) (c : TableCandidate),
      insertCandidate st c = none →
      stepState (st, n) c = ((⟨n, [initFragment c]⟩ : TableGroup) :: st, n + 1) ∧
      (⟨n, [initFragment c]⟩ : TableGroup).members.getLast? =
        some (initFragment c)) ∧
    (∀ cands : List TableCandidate,
      groupTables cands = (assignTableGroups cands).map mergeGroup) := by
  refine ⟨?_, ?_, fun _ => rfl⟩
  · intro cands
    have h := runMatcherAux_flatten cands ([], 0)
    simpa [assignTableGroups, flattenCands] using h
  · intro st n c h
    exact ⟨by simp [stepState, h], rfl⟩

/-- Witness for C6: coverage of a concrete two-candidate stream, and the
singleton group created by the first candidate. -/
theorem groupCoverage_witness :
    (flattenCands (assignTableGroups [candRev, candNoHead])).Perm
        [candRev, candNoHead] ∧
      stepState ([], 0) candStub =
        ((⟨0, [initFragment candStub]⟩ : TableGroup) :: [], 0 + 1) :=
  ⟨groupCoverage.1 [candRev, candNoHead],
    (groupCoverage.2.1 [] 0 candStub rfl).1⟩

/-- C8: merging a group with exactly one member is the identity: the merged
table carries the member's headers and rows, inferredHeaders false, and the
single rowStartIndex 0. -/
theorem singletonGroupIdentity :
    (∀ (gid : Nat) (c : TableCandidate),
      mergeGroup ⟨gid, [initFragment c]⟩ =
        ⟨gid, c.headers, c.rows, [0], [false]⟩) ∧
    (∀ (cands : List TableCandidate) (g : TableGroup),
      g ∈ assignTableGroups cands → ∀ f, g.members = [f] →
      mergeGroup g = ⟨g.gid, f.cand.headers, f.cand.rows, [0], [false]⟩) := by
  refine ⟨mergeGroup_initFragment, ?_⟩
  intro cands g hg f hf
  have hinit : f = initFragment f.cand :=
    runMatcherAux_groups_inv
      (fun g => ∀ f, g.members.head? = some f → f = initFragment f.cand)
      stepState_headInit cands ([], 0) (by simp) g hg f (by rw [hf]; rfl)
  obtain ⟨gid, members⟩ := g
  simp only at hf
  subst hf
  have hswap : (⟨gid, [f]⟩ : TableGroup) = ⟨gid, [initFragment f.cand]⟩ := by
    rw [← hinit]
  rw [hswap, mergeGroup_initFragment]

/-- Witness for C8 at a matcher-built singleton group. -/
theorem singletonGroupIdentity_witness :
    mergeGroup ⟨0, [initFragment candRev]⟩ =
      ⟨0, candRev.headers, candRev.rows, [0], [false]⟩ ∧
    mergeGroup (⟨0, [initFragment candRev]⟩ : TableGroup) =
      ⟨(⟨0, [initFragment candRev]⟩ : TableGroup).gid,
        (initFragment candRev).cand.headers,
        (initFragment candRev).cand.rows, [0], [false]⟩ :=
  ⟨singletonGroupIdentity.1 0 candRev,
    singletonGroupIdentity.2 [candRev] ⟨0, [initFragment candRev]⟩
      (by decide) (initFragment candRev) rfl⟩

/-- C4: the duplicate row trimmer drops a matched continuation's leading row
when its signature equals the tail's last row signature; for every
matcher-built group the merged row count plus the dropped duplicates gives
back the fragments' total row count, with strict inequality exactly when a
duplicate was dropped; and in the two-fragment overlap scenario the shared
row appears exactly once in the merged table. -/
theorem duplicateTrimming :
    (∀ (c : TableCandidate) (t : Fragment) (lr fr : List String),
      t.rows.getLast? = some lr → c.rows.head? = some fr →
      rowSignature lr = rowSignature fr →
      (mkContinuation c t).rows = c.rows.drop 1 ∧
        (mkContinuation c t).trimmedLeading = true) ∧
    (∀ (cands : List TableCandidate) (g : TableGroup),
      g ∈ assignTableGroups cands →
      (mergeGroup g).rows.length + (trimCount g + dropCount g) = origRowCount g ∧
      ((mergeGroup g).rows.length < origRowCount g ↔
        0 < trimCount g + dropCount g)) ∧
    (∀ (A B : TableCandidate) (lr : List String),
      matchesTail B (initFragment A) = true →
      A.rows.getLast? = some lr →
      (∃ fr, B.rows.head? = some fr ∧ rowSignature fr = rowSignature lr) →
      sigCount (rowSignature lr) A.rows = 1 →
      sigCount (rowSignature lr) B.rows = 1 →
      assignTableGroups [A, B] =
        [⟨0, [initFragment A, mkContinuation B (initFragment A)]⟩] ∧
      sigCount (rowSignature lr)
        (mergeGroup
          ⟨0, [initFragment A, mkContinuation B (initFragment A)]⟩).rows = 1) := by
  refine ⟨?_, ?_, ?_⟩
  · intro c t lr fr hlast hhead hsig
    have htr : trimsLeading c t = true := by
      unfold trimsLeading
      rw [hlast, hhead]
      simp [hsig]
    exact ⟨by simp [mkContinuation, htr], by simp [mkContinuation, htr]⟩
  · intro cands g hg
    have hacc : ∀ f ∈ g.members, fragAccounted f :=
      runMatcherAux_groups_inv (fun g => ∀ f ∈ g.members, fragAccounted f)
        stepState_accounted cands ([], 0) (by simp) g hg
    have h1 : (mergeRowsAux ([], 0) g.members).1.length +
        (mergeRowsAux ([], 0) g.members).2 =
        (g.members.map (fun f => f.rows.length)).sum := by
      simpa using mergeRowsAux_spec g.members ([], 0)
    have h2 := rows_sum_accounted g.members hacc
    have key : (mergeGroup g).rows.length + (trimCount g + dropCount g) =
        origRowCount g := by
      show (mergeRowsAux ([], 0) g.members).1.length +
        (g.members.countP (fun f => f.trimmedLeading) +
          (mergeRowsAux ([], 0) g.members).2) =
        (g.members.map (fun f => f.cand.rows.length)).sum
      omega
    exact ⟨key, by omega⟩
  · intro A B lr hmatch hlast hex hA hB
    obtain ⟨fr, hfr, hsig⟩ := hex
    have htr : trimsLeading B (initFragment A) = true := by
      unfold trimsLeading
      dsimp only [initFragment]
      rw [hlast, hfr]
      simp [hsig]
    have hgroups : assignTableGroups [A, B] =
        [⟨0, [initFragment A, mkContinuation B (initFragment A)]⟩] := by
      simp [assignTableGroups, runMatcherAux, stepState, insertCandidate, hmatch]
    refine ⟨hgroups, ?_⟩
    have hrowsB : (mkContinuation B (initFragment A)).rows = B.rows.drop 1 := by
      simp [mkContinuation, htr]
    have hmr : (mergeGroup
        ⟨0, [initFragment A, mkContinuation B (initFragment A)]⟩).rows =
        (appendFragmentRows A.rows (B.rows.drop 1)).1 := by
      show (mergeRowsAux ([], 0)
        [initFragment A, mkContinuation B (initFragment A)]).1 = _
      simp only [mergeRowsAux, hrowsB]
      rw [appendFragmentRows_nil]
      rfl
    cases hBr : B.rows with
    | nil => rw [hBr] at hfr; simp at hfr
    | cons fr0 tl =>
      rw [hBr] at hfr
      simp only [List.head?_cons, Option.some.injEq] at hfr
      subst hfr
      rw [hBr] at hB
      have hfr0 : (rowSignature fr0 == rowSignature lr) = true := by
        simp [hsig]
      have htl : sigCount (rowSignature lr) tl = 0 := by
        unfold sigCount at hB ⊢
        rw [List.countP_cons, hfr0] at hB
        simp only [eq_self_iff_true, if_true] at hB
        omega
      have hdrop : B.rows.drop 1 = tl := by rw [hBr]; rfl
      rw [hmr, hdrop]
      cases htl2 : tl with
      | nil =>
        have : (appendFragmentRows A.rows ([] : List (List String))).1 = A.rows := by
          cases hgl2 : A.rows.getLast? <;>
            simp [appendFragmentRows, hgl2]
        rw [this]
        exact hA
      | cons r2 rest2 =>
        have hr2 : (rowSignature r2 == rowSignature lr) = false := by
          rw [htl2] at htl
          unfold sigCount at htl
          rw [List.countP_cons] at htl
          by_cases hr : (rowSignature r2 == rowSignature lr) = true
          · rw [hr] at htl
            simp only [eq_self_iff_true, if_true] at htl
            exact absurd htl (by omega)
          · simpa using hr
        have hr2s : (rowSignature lr == rowSignature r2) = false := by
          simp only [beq_eq_false_iff_ne, ne_eq] at hr2 ⊢
          exact fun he => hr2 he.symm
        have happ : (appendFragmentRows A.rows (r2 :: rest2)).1 =
            A.rows ++ r2 :: rest2 := by
          unfold appendFragmentRows
          rw [hlast]
          simp [hr2s]
        rw [happ]
        unfold sigCount at hA htl ⊢
        rw [List.countP_append, hA]
        rw [htl2] at htl
        omega

/-- Witness for C4: candRev followed by candB, whose first row duplicates
candRev's last row; the merged table holds that row once, and the row
accounting of the resulting group is exact. -/
theorem duplicateTrimming_witness :
    ((mkContinuation candB (initFragment candRev)).rows =
        candB.rows.drop 1 ∧
      (mkContinuation candB (initFragment candRev)).trimmedLeading = true) ∧
    (assignTableGroups [candRev, candB] =
        [⟨0, [initFragment candRev, mkContinuation candB (initFragment candRev)]⟩] ∧
      sigCount (rowSignature ["3", "z", "30"])
        (mergeGroup ⟨0, [initFragment candRev,
          mkContinuation candB (initFragment candRev)]⟩).rows = 1) ∧
    ((mergeGroup ⟨0, [initFragment candRev,
        mkContinuation candB (initFragment candRev)]⟩).rows.length +
      (trimCount ⟨0, [initFragment candRev,
        mkContinuation candB (initFragment candRev)]⟩ +
       dropCount ⟨0, [initFragment candRev,
        mkContinuation candB (initFragment candRev)]⟩) =
      origRowCount ⟨0, [initFragment candRev,
        mkContinuation candB (initFragment candRev)]⟩) :=
  ⟨duplicateTrimming.1 candB (initFragment candRev) ["3", "z", "30"]
      ["3", "z", "30"] (by decide) (by decide) rfl,
    duplicateTrimming.2.2 candRev candB ["3", "z", "30"] (by decide) (by decide)
      ⟨["3", "z", "30"], by decide, rfl⟩ (by decide) (by decide),
    (duplicateTrimming.2.1 [candRev, candB]
      ⟨0, [initFragment candRev, mkContinuation candB (initFragment candRev)]⟩
      (by decide)).1⟩

/-- C10: setJobId stores the given job id, resets currentPage to 1 and
selectedTab to the fields tab, stores the given totalPages or 0 when omitted,
and leaves zoom and showBoundingBoxes unchanged. -/
theorem setJobId_frame (s : ViewerState) (j : Option String) (tp : Option Nat) :
    setJobId s j tp =
      { jobId := j
        currentPage := 1
        totalPages := tp.getD 0
        selectedTab := ResultsTab.fields
        zoom := s.zoom
        showBoundingBoxes := s.showBoundingBoxes } :=
  rfl

end ReconAI
